import Mathlib

/-!
Shallow embedding of the LOCA extension core (`src/extension.ts`):
the line classifier, the category classifier, the LOC counter, the
symbol-tree traversal with deduplication, the rendering refresh step
and the debounce scheduler, together with theorems settling the
frozen claims about them.
-/

namespace Loca

/-- A zero-based line/column position, as reported by the editor API. -/
structure Pos where
  line : Nat
  character : Nat
deriving DecidableEq, Repr

/-- An inclusive start/end span of positions. -/
structure Range where
  start : Pos
  «end» : Pos
deriving DecidableEq, Repr

/-- The construct kinds reported by the symbol-tree provider.  Only
`Function`, `Method` and `Constructor` are function-like; the remaining
kinds stand for every other value of the host enumeration. -/
inductive SymbolKind where
  | File
  | Module
  | Namespace
  | Class
  | Method
  | Function
  | Constructor
  | Variable
  | Other
deriving DecidableEq, Repr

/-- A node of the symbol tree: kind, full range, signature (selection)
range and ordered children. -/
inductive DocumentSymbol where
  | mk (kind : SymbolKind) (range : Range) (selectionRange : Range)
      (children : List DocumentSymbol)

/-- The `kind` field of a symbol. -/
def DocumentSymbol.kind : DocumentSymbol → SymbolKind
  | .mk k _ _ _ => k

/-- The `range` field of a symbol (full construct span). -/
def DocumentSymbol.range : DocumentSymbol → Range
  | .mk _ r _ _ => r

/-- The `selectionRange` field of a symbol (signature span). -/
def DocumentSymbol.selectionRange : DocumentSymbol → Range
  | .mk _ _ sr _ => sr

/-- The `children` field of a symbol. -/
def DocumentSymbol.children : DocumentSymbol → List DocumentSymbol
  | .mk _ _ _ cs => cs

/-- A document is its list of physical lines (no trailing newlines),
zero-indexed, as exposed by `document.lineAt`. -/
structure Document where
  lines : List String

/-- `document.lineAt(n).text`. -/
def Document.lineAt (doc : Document) (n : Nat) : String :=
  doc.lines.getD n ""

/-- The white-space set trimmed by the host string runtime:
tab, line feed, vertical tab, form feed, carriage return, space,
no-break space, the Unicode space separators, the line and paragraph
separators and the byte-order mark. -/
def jsIsWhitespace (c : Char) : Bool :=
  let n := c.toNat
  n == 0x9 || n == 0xA || n == 0xB || n == 0xC || n == 0xD || n == 0x20 ||
  n == 0xA0 || n == 0x1680 || (0x2000 ≤ n && n ≤ 0x200A) || n == 0x2028 ||
  n == 0x2029 || n == 0x202F || n == 0x205F || n == 0x3000 || n == 0xFEFF

/-- The host `trim`: removes leading and trailing white space. -/
def jsTrim (s : String) : String :=
  String.mk (((s.data.dropWhile jsIsWhitespace).reverse.dropWhile
    jsIsWhitespace).reverse)

/-- The host `startsWith`. -/
def jsStartsWith (s pre : String) : Bool :=
  pre.data.isPrefixOf s.data

/-- The host `endsWith`. -/
def jsEndsWith (s post : String) : Bool :=
  post.data.isSuffixOf s.data

/-- Whether a character is a line terminator (which the dot of a
regular expression does not match). -/
def isLineTerminator (c : Char) : Bool :=
  c == '\n' || c == '\r' || c == Char.ofNat 0x2028 || c == Char.ofNat 0x2029

/-- The regular expression test from the classifier,
matching a whole string of the shape slash-star, middle, star-slash
where the middle contains no line terminator (the anchored
pattern with a dot-star in between, dot excluding line terminators). -/
def matchesBlockCommentRegex (s : String) : Bool :=
  jsStartsWith s "/*" && jsEndsWith s "*/" && 4 ≤ s.data.length &&
    ((s.data.drop 2).take (s.data.length - 4)).all fun c => !isLineTerminator c

/-- `isIgnorableLine` from the source: trims the line, then reports
blank lines, comment-leading tokens, and single-line block comments
as ignorable. -/
def isIgnorableLine (line : String) : Bool :=
  let trimmed := jsTrim line
  if trimmed.isEmpty then
    -- empty line
    true
  else if jsStartsWith trimmed "//" || jsStartsWith trimmed "#" ||
      jsStartsWith trimmed "--" || jsStartsWith trimmed "/*" ||
      jsStartsWith trimmed "*" || jsStartsWith trimmed "*/" then
    true
  else if matchesBlockCommentRegex trimmed then
    true
  else
    false

/-- The LOC severity categories (`green` is the low tier, `orange` the
medium tier, `red` the high tier). -/
inductive LocCategory where
  | green
  | orange
  | red
deriving DecidableEq, Repr

/-- `getLocCategory` from the source. -/
def getLocCategory (loc : Int) : LocCategory :=
  if loc ≤ 35 then
    .green
  else if loc ≤ 60 then
    .orange
  else
    .red

/-- `isFunctionSymbol` from the source. -/
def isFunctionSymbol (symbol : DocumentSymbol) : Bool :=
  symbol.kind == SymbolKind.Function ||
  symbol.kind == SymbolKind.Method ||
  symbol.kind == SymbolKind.Constructor

/-- `countLoc` from the source: counts the non-ignorable lines strictly
after the signature's last line, through the full range's last line. -/
def countLoc (doc : Document) (symbol : DocumentSymbol) : Int :=
  let startLine := symbol.range.start.line
  let endLine := symbol.range.«end».line
  let signatureEndLine := max symbol.selectionRange.«end».line startLine
  if endLine ≤ signatureEndLine then
    0
  else
    (List.range' (signatureEndLine + 1) (endLine - signatureEndLine)).foldl
      (fun loc lineNumber =>
        if !isIgnorableLine (doc.lineAt lineNumber) then loc + 1 else loc)
      0

/-- All collected metrics for a single function: full range, signature
range and LOC value. -/
structure FunctionMetric where
  range : Range
  signatureRange : Range
  loc : Int
deriving DecidableEq, Repr

/-- `getMetricKey` from the source: the position-based identity key
built from the four coordinates of the signature range. -/
def getMetricKey (symbol : DocumentSymbol) : String :=
  let start := symbol.selectionRange.start
  let «end» := symbol.selectionRange.«end»
  Nat.repr start.line ++ ":" ++ Nat.repr start.character ++ "-" ++
    Nat.repr «end».line ++ ":" ++ Nat.repr «end».character

/-- The metric a symbol contributes (what `analyzeDocument` stores). -/
def mkMetric (doc : Document) (symbol : DocumentSymbol) : FunctionMetric :=
  { range := symbol.range
    signatureRange := symbol.selectionRange
    loc := countLoc doc symbol }

/-- The dedup map, as an association list in key-insertion order
(the host map iterates values in key-insertion order). -/
abbrev MetricMap := List (String × FunctionMetric)

/-- `metrics.set(key, v)` on the host map: overwrites in place when the
key is present (keeping its original position), appends otherwise. -/
def mapSet (m : MetricMap) (key : String) (v : FunctionMetric) : MetricMap :=
  if m.any (fun p => p.1 == key) then
    m.map (fun p => if p.1 == key then (key, v) else p)
  else
    m ++ [(key, v)]

mutual

/-- Node count of a symbol subtree (termination measure for the
stack-based traversal). -/
def DocumentSymbol.size : DocumentSymbol → Nat
  | .mk _ _ _ cs => 1 + stackSize cs

/-- Total node count of a stack of subtrees. -/
def stackSize : List DocumentSymbol → Nat
  | [] => 0
  | c :: cs => c.size + stackSize cs

end

theorem stackSize_append (a b : List DocumentSymbol) :
    stackSize (a ++ b) = stackSize a + stackSize b := by
  induction a with
  | nil => simp [stackSize]
  | cons c cs ih => simp [stackSize, ih]; omega

theorem stackSize_concat_children (rest : List DocumentSymbol)
    (s : DocumentSymbol) :
    stackSize (rest ++ s.children) < stackSize (rest ++ [s]) := by
  cases s with
  | mk k r sr cs =>
    simp only [stackSize_append, DocumentSymbol.children]
    have h1 : stackSize [DocumentSymbol.mk k r sr cs] = 1 + stackSize cs := by
      simp [stackSize, DocumentSymbol.size]
    omega

theorem dropLast_concat_getLast_of_getLast?_eq {l : List DocumentSymbol}
    {s : DocumentSymbol} (h : l.getLast? = some s) :
    l.dropLast ++ [s] = l := by
  cases l with
  | nil => simp at h
  | cons a t =>
    have hne : a :: t ≠ ([] : List DocumentSymbol) := by simp
    have := List.getLast?_eq_getLast (a :: t) hne
    rw [this] at h
    have hs : (a :: t).getLast hne = s := by
      exact Option.some.inj h
    rw [← hs]
    exact List.dropLast_append_getLast hne

/-- The dedup loop of `analyzeDocument`: pop the last stack entry, push
its children, and record a metric for function-like symbols whose LOC
is non-negative. -/
def analyzeLoop (doc : Document) (stack : List DocumentSymbol)
    (metrics : MetricMap) : MetricMap :=
  match h : stack.getLast? with
  | none => metrics
  | some symbol =>
    let newStack := stack.dropLast ++ symbol.children
    if isFunctionSymbol symbol then
      let loc := countLoc doc symbol
      if 0 ≤ loc then
        analyzeLoop doc newStack
          (mapSet metrics (getMetricKey symbol)
            { range := symbol.range
              signatureRange := symbol.selectionRange
              loc := loc })
      else
        analyzeLoop doc newStack metrics
    else
      analyzeLoop doc newStack metrics
termination_by stackSize stack
decreasing_by
  all_goals
    have h2 := stackSize_concat_children stack.dropLast symbol
    rw [dropLast_concat_getLast_of_getLast?_eq h] at h2
    exact h2

/-- The order in which the stack loop processes symbols (top of stack
is the last list entry; children are pushed before the next pop). -/
def traversal (stack : List DocumentSymbol) : List DocumentSymbol :=
  match h : stack.getLast? with
  | none => []
  | some symbol => symbol :: traversal (stack.dropLast ++ symbol.children)
termination_by stackSize stack
decreasing_by
  have h2 := stackSize_concat_children stack.dropLast symbol
  rw [dropLast_concat_getLast_of_getLast?_eq h] at h2
  exact h2

/-- `analyzeDocument` from the source: the provider call either throws
(caught, treated as no result), returns nothing, or returns a symbol
list that is traversed and deduplicated. -/
def analyzeDocument (doc : Document)
    (providerResult : Except Unit (Option (List DocumentSymbol))) :
    List FunctionMetric :=
  let symbols : Option (List DocumentSymbol) :=
    match providerResult with
    | .error _ => none
    | .ok s => s
  match symbols with
  | none => []
  | some syms => (analyzeLoop doc syms []).map Prod.snd

/-- What one loop iteration of `analyzeDocument` does to the dedup map
at the symbol it processes. -/
def analyzeStep (doc : Document) (m : MetricMap) (s : DocumentSymbol) :
    MetricMap :=
  if isFunctionSymbol s then
    if 0 ≤ countLoc doc s then
      mapSet m (getMetricKey s) (mkMetric doc s)
    else
      m
  else
    m

/-- The inline-label text colors per category, from the source. -/
def categoryColors (c : LocCategory) : String :=
  match c with
  | .green => "#4CAF50"
  | .orange => "#FF9800"
  | .red => "#F44336"

/-- One inline decoration entry: a zero-width anchor range plus the
rendered label text and color. -/
structure InlineEntry where
  range : Range
  contentText : String
  color : String
deriving DecidableEq, Repr

/-- The per-category background buckets built by `refreshDecorations`. -/
structure Buckets where
  green : List Range
  orange : List Range
  red : List Range
deriving DecidableEq, Repr

/-- `backgroundBuckets[category].push(metric.range)`. -/
def bucketsPush (b : Buckets) (c : LocCategory) (r : Range) : Buckets :=
  match c with
  | .green => { b with green := b.green ++ [r] }
  | .orange => { b with orange := b.orange ++ [r] }
  | .red => { b with red := b.red ++ [r] }

/-- The inline entry built for one metric in `refreshDecorations`. -/
def mkInlineEntry (metric : FunctionMetric) : InlineEntry :=
  let category := getLocCategory metric.loc
  { range := ⟨metric.signatureRange.«end», metric.signatureRange.«end»⟩
    contentText := " LOC: " ++ toString metric.loc
    color := categoryColors category }

/-- One `setDecorations` call sent to the rendering sink: either a
background highlight type with its ranges, or the inline label type
with its entries. -/
inductive EditorCall where
  | setHighlight (category : LocCategory) (ranges : List Range)
  | setInline (entries : List InlineEntry)
deriving DecidableEq, Repr

/-- `clearAllDecorations` from the source: every decoration type is set
to the empty list. -/
def clearAllDecorations : List EditorCall :=
  [.setInline [],
   .setHighlight .green [],
   .setHighlight .orange [],
   .setHighlight .red []]

/-- `refreshDecorations` from the source, as the sequence of
`setDecorations` calls it sends to the rendering sink. -/
def refreshDecorations (doc : Document)
    (providerResult : Except Unit (Option (List DocumentSymbol))) :
    List EditorCall :=
  let metrics := analyzeDocument doc providerResult
  if metrics.isEmpty then
    clearAllDecorations
  else
    let folded := metrics.foldl
      (fun (acc : Buckets × List InlineEntry) metric =>
        let category := getLocCategory metric.loc
        (bucketsPush acc.1 category metric.range,
         acc.2 ++ [mkInlineEntry metric]))
      (⟨[], [], []⟩, [])
    [.setHighlight .green folded.1.green,
     .setHighlight .orange folded.1.orange,
     .setHighlight .red folded.1.red,
     .setInline folded.2]

/-- The scheduler's mutable state: the pending debounce timer handle
(`updateTimer`), plus a counter supplying fresh timer handles. -/
structure SchedulerState where
  updateTimer : Option Nat
  nextTimerId : Nat
deriving DecidableEq, Repr

/-- `triggerUpdate` from the source: cancels any pending timer and
starts a fresh ~250 ms timer. -/
def triggerUpdate (s : SchedulerState) : SchedulerState :=
  { updateTimer := some s.nextTimerId, nextTimerId := s.nextTimerId + 1 }

/-- The `loca.recalculateMetrics` command handler from `activate`, with
an active editor present: it invokes `refreshDecorations` immediately
(the returned count is the number of analysis runs performed now) and
leaves `updateTimer` untouched. -/
def recalculateCommand (s : SchedulerState) : SchedulerState × Nat :=
  (s, 1)

/-- The pending debounce timer elapsing: if a timer is pending it fires
one analysis run, otherwise nothing happens. -/
def timerElapse (s : SchedulerState) : SchedulerState × Nat :=
  match s.updateTimer with
  | none => (s, 0)
  | some _ => ({ s with updateTimer := none }, 1)

theorem analyzeLoop_nil (doc : Document) (m : MetricMap) :
    analyzeLoop doc [] m = m := by
  unfold analyzeLoop
  rfl

theorem analyzeLoop_concat (doc : Document) (xs : List DocumentSymbol)
    (s : DocumentSymbol) (m : MetricMap) :
    analyzeLoop doc (xs ++ [s]) m =
      analyzeLoop doc (xs ++ s.children) (analyzeStep doc m s) := by
  rw [analyzeLoop]
  split
  case h_1 heq =>
    rw [List.getLast?_concat] at heq
    exact absurd heq (by simp)
  case h_2 symbol heq =>
    rw [List.getLast?_concat] at heq
    obtain rfl : s = symbol := Option.some.inj heq
    rw [List.dropLast_concat]
    simp only [analyzeStep, mkMetric]
    by_cases hf : isFunctionSymbol s
    · by_cases hl : (0 : Int) ≤ countLoc doc s
      · simp [hf, hl]
      · simp [hf, hl]
    · simp [hf]

theorem traversal_nil : traversal [] = [] := by
  unfold traversal
  rfl

theorem traversal_concat (xs : List DocumentSymbol) (s : DocumentSymbol) :
    traversal (xs ++ [s]) = s :: traversal (xs ++ s.children) := by
  rw [traversal]
  split
  case h_1 heq =>
    rw [List.getLast?_concat] at heq
    exact absurd heq (by simp)
  case h_2 symbol heq =>
    rw [List.getLast?_concat] at heq
    obtain rfl : s = symbol := Option.some.inj heq
    rw [List.dropLast_concat]

theorem analyzeLoop_eq_foldl_aux (doc : Document) (n : Nat) :
    ∀ stack m, stackSize stack < n →
      analyzeLoop doc stack m = (traversal stack).foldl (analyzeStep doc) m := by
  induction n with
  | zero => intro stack m h; omega
  | succ n ih =>
    intro stack m h
    rcases List.eq_nil_or_concat stack with rfl | ⟨xs, s, rfl⟩
    · rw [analyzeLoop_nil, traversal_nil]; rfl
    · simp only [List.concat_eq_append] at h ⊢
      rw [analyzeLoop_concat, traversal_concat, List.foldl_cons]
      apply ih
      have := stackSize_concat_children xs s
      omega

theorem analyzeLoop_eq_foldl (doc : Document) (stack : List DocumentSymbol)
    (m : MetricMap) :
    analyzeLoop doc stack m = (traversal stack).foldl (analyzeStep doc) m :=
  analyzeLoop_eq_foldl_aux doc (stackSize stack + 1) stack m (by omega)

/-- Modelled from the claim under test: the Line Classifier with the
explicit single-line block-comment rule removed (only the trim/empty
check and the leading-token check remain). -/
def isIgnorableLineNoBlockRule (line : String) : Bool :=
  let trimmed := jsTrim line
  if trimmed.isEmpty then
    true
  else if jsStartsWith trimmed "//" || jsStartsWith trimmed "#" ||
      jsStartsWith trimmed "--" || jsStartsWith trimmed "/*" ||
      jsStartsWith trimmed "*" || jsStartsWith trimmed "*/" then
    true
  else
    false

theorem matchesBlockCommentRegex_startsWith (s : String)
    (h : matchesBlockCommentRegex s = true) : jsStartsWith s "/*" = true := by
  unfold matchesBlockCommentRegex at h
  simp only [Bool.and_eq_true] at h
  exact h.1.1.1

theorem foldl_if_count (q : Nat → Bool) :
    ∀ (l : List Nat) (init : Int),
      l.foldl (fun loc n => if q n then loc + 1 else loc) init =
        init + (l.countP q : Int) := by
  intro l
  induction l with
  | nil => intro init; simp
  | cons a t ih =>
    intro init
    rw [List.foldl_cons, ih]
    by_cases hq : q a
    · simp [hq, List.countP_cons]
      ring
    · simp [hq, List.countP_cons]

theorem countLoc_nonneg (doc : Document) (symbol : DocumentSymbol) :
    0 ≤ countLoc doc symbol := by
  simp only [countLoc]
  split
  · exact le_refl 0
  · rw [foldl_if_count]
    positivity

/-- C1: `countLoc` returns 0 when the full range's end line is at most
the clamped signature-end line `max(signatureRange.end.line,
fullRange.start.line)`, and otherwise returns exactly the number of
line indices from that clamped line + 1 through `fullRange.end.line`
inclusive whose text the Line Classifier does not mark ignorable; the
max clamp recovers a malformed signature range and the function is
total (no error). -/
theorem claim_C1_countLoc_spec (doc : Document) (symbol : DocumentSymbol) :
    countLoc doc symbol =
      if symbol.range.«end».line ≤
          max symbol.selectionRange.«end».line symbol.range.start.line then
        0
      else
        (((Finset.Icc
            (max symbol.selectionRange.«end».line symbol.range.start.line + 1)
            symbol.range.«end».line).filter
          fun n => isIgnorableLine (doc.lineAt n) = false).card : Int) := by
  simp only [countLoc]
  by_cases h : symbol.range.«end».line ≤
      max symbol.selectionRange.«end».line symbol.range.start.line
  · simp [h]
  · rw [if_neg h, if_neg h, foldl_if_count]
    have hcard :
        ((Finset.Icc
            (max symbol.selectionRange.«end».line symbol.range.start.line + 1)
            symbol.range.«end».line).filter
          fun n => isIgnorableLine (doc.lineAt n) = false).card =
        ((List.range'
            (max symbol.selectionRange.«end».line symbol.range.start.line + 1)
            (symbol.range.«end».line + 1 -
              (max symbol.selectionRange.«end».line symbol.range.start.line +
                1))).filter
          fun n => decide (isIgnorableLine (doc.lineAt n) = false)).length := by
      rw [Nat.Icc_eq_range']
      rfl
    have hlen : symbol.range.«end».line + 1 -
        (max symbol.selectionRange.«end».line symbol.range.start.line + 1) =
        symbol.range.«end».line -
          max symbol.selectionRange.«end».line symbol.range.start.line := by
      omega
    have hfun : (fun n => decide (isIgnorableLine (doc.lineAt n) = false)) =
        fun n => !isIgnorableLine (doc.lineAt n) := by
      funext n
      cases hn : isIgnorableLine (doc.lineAt n) <;> simp [hn]
    rw [hcard, hlen, hfun, ← List.countP_eq_length_filter]
    simp

/-- C2: the category classifier is a total function of the LOC integer:
green (the low tier) iff `loc ≤ 35`, orange (medium) iff
`36 ≤ loc ≤ 60`, red (high) iff `loc > 60`; in particular
`classify 35 = green`, `classify 36 = orange`, `classify 60 = orange`,
`classify 61 = red`.  Determinism holds because `getLocCategory` is a
pure function. -/
theorem claim_C2_getLocCategory_spec :
    ∀ loc : Int,
      ((getLocCategory loc = .green ↔ loc ≤ 35) ∧
       (getLocCategory loc = .orange ↔ 36 ≤ loc ∧ loc ≤ 60) ∧
       (getLocCategory loc = .red ↔ 60 < loc)) ∧
      getLocCategory 35 = .green ∧ getLocCategory 36 = .orange ∧
      getLocCategory 60 = .orange ∧ getLocCategory 61 = .red := by
  intro loc
  refine ⟨⟨?_, ?_, ?_⟩, by decide, by decide, by decide, by decide⟩ <;>
    (unfold getLocCategory
     by_cases h1 : loc ≤ 35 <;> by_cases h2 : loc ≤ 60 <;>
       simp [h1, h2] <;> omega)

/-- C4: `isIgnorableLine` returns true iff the trimmed line is empty or
starts with one of the fixed leading tokens, and it returns the listed
values on the claim's sample inputs; it is a pure function of the line
text. -/
theorem claim_C4_isIgnorableLine_spec :
    (∀ line : String,
      isIgnorableLine line = true ↔
        ((jsTrim line).isEmpty = true ∨
         jsStartsWith (jsTrim line) "//" = true ∨
         jsStartsWith (jsTrim line) "#" = true ∨
         jsStartsWith (jsTrim line) "--" = true ∨
         jsStartsWith (jsTrim line) "/*" = true ∨
         jsStartsWith (jsTrim line) "*" = true ∨
         jsStartsWith (jsTrim line) "*/" = true)) ∧
    isIgnorableLine "" = true ∧
    isIgnorableLine "   " = true ∧
    isIgnorableLine "// comment" = true ∧
    isIgnorableLine "# comment" = true ∧
    isIgnorableLine "-- comment" = true ∧
    isIgnorableLine "* inner block comment line" = true ∧
    isIgnorableLine "const x = 1;" = false := by
  refine ⟨?_, by decide, by decide, by decide, by decide, by decide,
    by decide, by decide⟩
  intro line
  constructor
  · intro h
    simp only [isIgnorableLine] at h
    by_cases h0 : (jsTrim line).isEmpty = true
    · exact Or.inl h0
    · rw [if_neg h0] at h
      by_cases h1 : (jsStartsWith (jsTrim line) "//" ||
          jsStartsWith (jsTrim line) "#" || jsStartsWith (jsTrim line) "--" ||
          jsStartsWith (jsTrim line) "/*" || jsStartsWith (jsTrim line) "*" ||
          jsStartsWith (jsTrim line) "*/") = true
      · simp only [Bool.or_eq_true] at h1
        tauto
      · rw [if_neg h1] at h
        by_cases h2 : matchesBlockCommentRegex (jsTrim line) = true
        · have hs := matchesBlockCommentRegex_startsWith _ h2
          exact absurd (by simp [hs]) h1
        · rw [if_neg h2] at h
          exact absurd h (by simp)
  · intro h
    simp only [isIgnorableLine]
    rcases h with h | h | h | h | h | h | h <;> simp [h]

/-- C5: when the provider call throws (caught and treated as no result)
or returns no result, `analyzeDocument` returns the empty metric list;
the failure is recovered locally and never propagated (the function is
total). -/
theorem claim_C5_provider_failure_empty :
    ∀ doc : Document,
      analyzeDocument doc (Except.error ()) = [] ∧
      analyzeDocument doc (Except.ok none) = [] :=
  fun _ => ⟨rfl, rfl⟩

/-- C8: the explicit single-line block-comment rule is redundant:
removing it yields a function extensionally equal to
`isIgnorableLine`, because every line accepted by the rule is already
accepted by the leading-token check for the block-comment opener. -/
theorem claim_C8_block_rule_redundant :
    ∀ line : String, isIgnorableLine line = isIgnorableLineNoBlockRule line := by
  intro line
  simp only [isIgnorableLine, isIgnorableLineNoBlockRule]
  by_cases h0 : (jsTrim line).isEmpty = true
  · simp [h0]
  · rw [if_neg h0, if_neg h0]
    by_cases h1 : (jsStartsWith (jsTrim line) "//" ||
        jsStartsWith (jsTrim line) "#" || jsStartsWith (jsTrim line) "--" ||
        jsStartsWith (jsTrim line) "/*" || jsStartsWith (jsTrim line) "*" ||
        jsStartsWith (jsTrim line) "*/") = true
    · rw [if_pos h1, if_pos h1]
    · rw [if_neg h1, if_neg h1]
      by_cases h2 : matchesBlockCommentRegex (jsTrim line) = true
      · have hs := matchesBlockCommentRegex_startsWith _ h2
        exact absurd (by simp [hs]) h1
      · rw [if_neg h2]

/-- Decode a digit character back to its value. -/
def dval (c : Char) : Nat := c.toNat - 48

/-- Decode a big-endian list of digit characters. -/
def ofDigitChars (cs : List Char) : Nat :=
  cs.foldl (fun a c => 10 * a + dval c) 0

theorem ofDigitChars_concat (cs : List Char) (c : Char) :
    ofDigitChars (cs ++ [c]) = 10 * ofDigitChars cs + dval c := by
  simp [ofDigitChars, List.foldl_append]

theorem digitChar_isDigit {m : Nat} (h : m < 10) :
    (Nat.digitChar m).isDigit = true := by
  interval_cases m <;> decide

theorem dval_digitChar {m : Nat} (h : m < 10) : dval (Nat.digitChar m) = m := by
  interval_cases m <;> decide

theorem toDigitsCore_spec :
    ∀ (fuel n : Nat) (ds : List Char), n < fuel →
      ∃ cs, Nat.toDigitsCore 10 fuel n ds = cs ++ ds ∧ cs ≠ [] ∧
        (∀ c ∈ cs, c.isDigit = true) ∧ ofDigitChars cs = n := by
  intro fuel
  induction fuel with
  | zero => intro n ds h; omega
  | succ fuel ih =>
    intro n ds h
    by_cases h0 : n / 10 = 0
    · refine ⟨[Nat.digitChar (n % 10)], ?_, by simp, ?_, ?_⟩
      · simp [Nat.toDigitsCore, h0]
      · intro c hc
        simp only [List.mem_singleton] at hc
        subst hc
        exact digitChar_isDigit (Nat.mod_lt _ (by norm_num))
      · have hn : n < 10 := by omega
        simp [ofDigitChars, dval_digitChar (Nat.mod_lt n (by norm_num) :
          n % 10 < 10)]
        omega
    · have hlt : n / 10 < fuel := by omega
      obtain ⟨cs, hcs, hne, hdig, hval⟩ :=
        ih (n / 10) (Nat.digitChar (n % 10) :: ds) hlt
      refine ⟨cs ++ [Nat.digitChar (n % 10)], ?_, by simp, ?_, ?_⟩
      · simp [Nat.toDigitsCore, h0, hcs]
      · intro c hc
        rcases List.mem_append.mp hc with hc | hc
        · exact hdig c hc
        · simp only [List.mem_singleton] at hc
          subst hc
          exact digitChar_isDigit (Nat.mod_lt _ (by norm_num))
      · rw [ofDigitChars_concat, hval,
          dval_digitChar (Nat.mod_lt n (by norm_num) : n % 10 < 10)]
        omega

theorem repr_data_spec (n : Nat) :
    (Nat.repr n).data ≠ [] ∧ (∀ c ∈ (Nat.repr n).data, c.isDigit = true) ∧
      ofDigitChars (Nat.repr n).data = n := by
  obtain ⟨cs, hcs, hne, hdig, hval⟩ := toDigitsCore_spec (n + 1) n [] (by omega)
  have hdata : (Nat.repr n).data = cs := by
    show (Nat.toDigits 10 n).asString.data = cs
    rw [Nat.toDigits, hcs]
    simp [List.asString]
  rw [hdata]
  exact ⟨hne, hdig, hval⟩

theorem natRepr_injective {m n : Nat} (h : Nat.repr m = Nat.repr n) : m = n := by
  have hm := (repr_data_spec m).2.2
  have hn := (repr_data_spec n).2.2
  rw [← hm, ← hn, h]

theorem append_sep_inj (sep : Char) :
    ∀ (xs1 xs2 ys1 ys2 : List Char), sep ∉ xs1 → sep ∉ xs2 →
      xs1 ++ sep :: ys1 = xs2 ++ sep :: ys2 → xs1 = xs2 ∧ ys1 = ys2 := by
  intro xs1
  induction xs1 with
  | nil =>
    intro xs2 ys1 ys2 h1 h2 h
    cases xs2 with
    | nil =>
      simp only [List.nil_append, List.cons.injEq] at h
      exact ⟨rfl, h.2⟩
    | cons b t =>
      simp only [List.nil_append, List.cons_append, List.cons.injEq] at h
      exact absurd (h.1 ▸ List.mem_cons_self b t) h2
  | cons a t ih =>
    intro xs2 ys1 ys2 h1 h2 h
    cases xs2 with
    | nil =>
      simp only [List.cons_append, List.nil_append, List.cons.injEq] at h
      exact absurd (h.1 ▸ List.mem_cons_self a t) h1
    | cons b u =>
      simp only [List.cons_append, List.cons.injEq] at h
      obtain ⟨rfl, h⟩ := h
      have h1' : sep ∉ t := fun hm => h1 (List.mem_cons_of_mem a hm)
      have h2' : sep ∉ u := fun hm => h2 (List.mem_cons_of_mem a hm)
      obtain ⟨rfl, hys⟩ := ih u ys1 ys2 h1' h2' h
      exact ⟨rfl, hys⟩

theorem digits_no_colon {cs : List Char} (h : ∀ c ∈ cs, c.isDigit = true) :
    (':' : Char) ∉ cs := by
  intro hm
  have := h _ hm
  exact absurd this (by decide)

theorem digits_no_dash {cs : List Char} (h : ∀ c ∈ cs, c.isDigit = true) :
    ('-' : Char) ∉ cs := by
  intro hm
  have := h _ hm
  exact absurd this (by decide)

/-- The identity key as a function of the signature range alone. -/
def keyOfSignatureRange (r : Range) : String :=
  Nat.repr r.start.line ++ ":" ++ Nat.repr r.start.character ++ "-" ++
    Nat.repr r.«end».line ++ ":" ++ Nat.repr r.«end».character

theorem getMetricKey_eq_keyOf (s : DocumentSymbol) :
    getMetricKey s = keyOfSignatureRange s.selectionRange := rfl

theorem keyOf_data (r : Range) :
    (keyOfSignatureRange r).data =
      (Nat.repr r.start.line).data ++ ':' ::
        ((Nat.repr r.start.character).data ++ '-' ::
          ((Nat.repr r.«end».line).data ++ ':' ::
            (Nat.repr r.«end».character).data)) := by
  simp [keyOfSignatureRange, String.data_append]

theorem keyOf_injective {r1 r2 : Range}
    (h : keyOfSignatureRange r1 = keyOfSignatureRange r2) : r1 = r2 := by
  have hd : (keyOfSignatureRange r1).data = (keyOfSignatureRange r2).data := by
    rw [h]
  rw [keyOf_data, keyOf_data] at hd
  obtain ⟨ha, hd⟩ := append_sep_inj ':' _ _ _ _
    (digits_no_colon (repr_data_spec r1.start.line).2.1)
    (digits_no_colon (repr_data_spec r2.start.line).2.1) hd
  obtain ⟨hb, hd⟩ := append_sep_inj '-' _ _ _ _
    (digits_no_dash (repr_data_spec r1.start.character).2.1)
    (digits_no_dash (repr_data_spec r2.start.character).2.1) hd
  obtain ⟨hc, hd⟩ := append_sep_inj ':' _ _ _ _
    (digits_no_colon (repr_data_spec r1.«end».line).2.1)
    (digits_no_colon (repr_data_spec r2.«end».line).2.1) hd
  have e1 : r1.start.line = r2.start.line :=
    natRepr_injective (congrArg String.mk ha)
  have e2 : r1.start.character = r2.start.character :=
    natRepr_injective (congrArg String.mk hb)
  have e3 : r1.«end».line = r2.«end».line :=
    natRepr_injective (congrArg String.mk hc)
  have e4 : r1.«end».character = r2.«end».character :=
    natRepr_injective (congrArg String.mk hd)
  cases r1 with
  | mk s1 e1' =>
    cases r2 with
    | mk s2 e2' =>
      cases s1; cases s2; cases e1'; cases e2'
      simp_all

/-- C10: `getMetricKey` is injective on signature ranges: two symbols
get equal keys iff their signature ranges agree on all four
coordinates; hence two symbols with distinct signature ranges are
never collapsed into one metric by deduplication. -/
theorem claim_C10_getMetricKey_injective :
    ∀ s1 s2 : DocumentSymbol,
      getMetricKey s1 = getMetricKey s2 ↔
        (s1.selectionRange.start.line = s2.selectionRange.start.line ∧
         s1.selectionRange.start.character =
           s2.selectionRange.start.character ∧
         s1.selectionRange.«end».line = s2.selectionRange.«end».line ∧
         s1.selectionRange.«end».character =
           s2.selectionRange.«end».character) := by
  intro s1 s2
  constructor
  · intro h
    rw [getMetricKey_eq_keyOf, getMetricKey_eq_keyOf] at h
    have := keyOf_injective h
    rw [this]
    exact ⟨rfl, rfl, rfl, rfl⟩
  · intro ⟨h1, h2, h3, h4⟩
    rw [getMetricKey_eq_keyOf, getMetricKey_eq_keyOf]
    unfold keyOfSignatureRange
    rw [h1, h2, h3, h4]

/-- The keys of the dedup map, in insertion order. -/
def mapKeys (m : MetricMap) : List String := m.map Prod.fst

/-- `metrics.get(key)` on the host map. -/
def mapGet (m : MetricMap) (key : String) : Option FunctionMetric :=
  (m.find? fun p => p.1 == key).map Prod.snd

theorem mem_mapSet {m : MetricMap} {key : String} {v : FunctionMetric}
    {p : String × FunctionMetric} (h : p ∈ mapSet m key v) :
    p ∈ m ∨ p = (key, v) := by
  unfold mapSet at h
  split at h
  · rw [List.mem_map] at h
    obtain ⟨q, hq, hql⟩ := h
    by_cases hk : q.1 == key
    · rw [if_pos hk] at hql
      exact Or.inr hql.symm
    · rw [if_neg hk] at hql
      exact Or.inl (hql ▸ hq)
  · rcases List.mem_append.mp h with h | h
    · exact Or.inl h
    · exact Or.inr (List.mem_singleton.mp h)

theorem mapKeys_mapSet (m : MetricMap) (key : String) (v : FunctionMetric) :
    mapKeys (mapSet m key v) =
      if key ∈ mapKeys m then mapKeys m else mapKeys m ++ [key] := by
  unfold mapSet mapKeys
  by_cases h : key ∈ m.map Prod.fst
  · have hany : (m.any fun p => p.1 == key) = true := by
      rw [List.any_eq_true]
      rw [List.mem_map] at h
      obtain ⟨p, hp, hk⟩ := h
      exact ⟨p, hp, by simp [hk]⟩
    rw [if_pos hany, if_pos h, List.map_map]
    apply List.map_congr_left
    intro p _
    by_cases hpk : p.1 == key
    · have : p.1 = key := by simpa using hpk
      simp [hpk, Function.comp, this]
    · simp [hpk, Function.comp]
  · have hany : ¬(m.any fun p => p.1 == key) = true := by
      rw [List.any_eq_true]
      rintro ⟨p, hp, hk⟩
      exact h (List.mem_map.mpr ⟨p, hp, by simpa using hk⟩)
    rw [if_neg hany, if_neg h]
    simp

theorem nodup_mapKeys_mapSet {m : MetricMap} (key : String)
    (v : FunctionMetric) (h : (mapKeys m).Nodup) :
    (mapKeys (mapSet m key v)).Nodup := by
  rw [mapKeys_mapSet]
  by_cases hk : key ∈ mapKeys m
  · rwa [if_pos hk]
  · rw [if_neg hk]
    rw [List.nodup_append]
    exact ⟨h, List.nodup_singleton key, by simpa using hk⟩

theorem find?_map_overwrite (m : MetricMap) (key : String) (v : FunctionMetric)
    (h : ∃ p ∈ m, p.1 = key) :
    ((m.map fun p => if p.1 == key then (key, v) else p).find?
      fun p => p.1 == key) = some (key, v) := by
  induction m with
  | nil => simp at h
  | cons q t ih =>
    by_cases hq : q.1 == key
    · rw [List.map_cons, if_pos hq, List.find?_cons_of_pos _ (by simp)]
    · rw [List.map_cons, if_neg hq,
        List.find?_cons_of_neg _ (by simpa using hq)]
      apply ih
      obtain ⟨p, hp, hk⟩ := h
      rcases List.mem_cons.mp hp with rfl | hp
      · exact absurd (by simp [hk]) hq
      · exact ⟨p, hp, hk⟩

theorem find?_append_new (m : MetricMap) (key : String) (v : FunctionMetric)
    (h : ∀ p ∈ m, p.1 ≠ key) :
    ((m ++ [(key, v)]).find? fun p => p.1 == key) = some (key, v) := by
  induction m with
  | nil => simp
  | cons q t ih =>
    rw [List.cons_append,
      List.find?_cons_of_neg _ (by simpa using h q (by simp))]
    exact ih fun p hp => h p (List.mem_cons_of_mem q hp)

theorem mapGet_mapSet_self (m : MetricMap) (key : String)
    (v : FunctionMetric) : mapGet (mapSet m key v) key = some v := by
  unfold mapSet mapGet
  by_cases hany : (m.any fun p => p.1 == key) = true
  · rw [if_pos hany, find?_map_overwrite]
    · rfl
    · rw [List.any_eq_true] at hany
      obtain ⟨p, hp, hk⟩ := hany
      exact ⟨p, hp, by simpa using hk⟩
  · rw [if_neg hany, find?_append_new]
    · rfl
    · intro p hp hk
      rw [List.any_eq_true] at hany
      exact hany ⟨p, hp, by simp [hk]⟩

theorem find?_key_map_overwrite_ne {k key : String} (v : FunctionMetric)
    (h : k ≠ key) :
    ∀ m : MetricMap,
      ((m.map fun p => if p.1 == key then (key, v) else p).find?
        fun p => p.1 == k) = m.find? fun p => p.1 == k := by
  intro m
  induction m with
  | nil => rfl
  | cons q t ih =>
    rw [List.map_cons]
    by_cases hq : q.1 = key
    · have e1 : ((key : String) == k) = false := by
        simp only [beq_eq_false_iff_ne, ne_eq]
        exact fun he => h he.symm
      have e2 : (q.1 == k) = false := by rw [hq]; exact e1
      have e3 : (q.1 == key) = true := by simpa using hq
      simp only [if_pos e3, List.find?_cons, e1, e2]
      exact ih
    · have e3 : ¬(q.1 == key) = true := by simpa using hq
      rw [if_neg e3]
      simp only [List.find?_cons]
      cases hqk : (q.1 == k)
      · simp only []
        exact ih
      · rfl

theorem mapGet_mapSet_ne (m : MetricMap) {k key : String}
    (v : FunctionMetric) (h : k ≠ key) :
    mapGet (mapSet m key v) k = mapGet m k := by
  unfold mapSet mapGet
  by_cases hany : (m.any fun p => p.1 == key) = true
  · rw [if_pos hany, find?_key_map_overwrite_ne v h m]
  · rw [if_neg hany, List.find?_append]
    have e1 : ((key : String) == k) = false := by
      simp only [beq_eq_false_iff_ne, ne_eq]
      exact fun he => h he.symm
    have hnone : (([(key, v)] : MetricMap).find? fun p => p.1 == k) = none := by
      simp [List.find?_cons, e1]
    rw [hnone]
    cases m.find? fun p => p.1 == k <;> rfl

theorem mapKeys_cons (q : String × FunctionMetric) (t : MetricMap) :
    mapKeys (q :: t) = q.1 :: mapKeys t := rfl

theorem filter_key_eq_nil_of_not_mem {m : MetricMap} {k : String}
    (h : k ∉ mapKeys m) : (m.filter fun p => p.1 == k) = [] := by
  induction m with
  | nil => rfl
  | cons q t ih =>
    rw [mapKeys_cons, List.mem_cons, not_or] at h
    obtain ⟨h1, h2⟩ := h
    have hqf : (q.1 == k) = false := by
      simp only [beq_eq_false_iff_ne, ne_eq]
      exact fun he => h1 he.symm
    rw [List.filter_cons]
    simp only [hqf, Bool.false_eq_true, if_false]
    exact ih h2

theorem filter_key_of_nodup {m : MetricMap} (h : (mapKeys m).Nodup)
    (k : String) :
    (m.filter fun p => p.1 == k) =
      ((mapGet m k).map fun v => (k, v)).toList := by
  induction m with
  | nil => rfl
  | cons q t ih =>
    rw [mapKeys_cons, List.nodup_cons] at h
    by_cases hq : (q.1 == k) = true
    · have hq' : q.1 = k := by simpa using hq
      have hknot : k ∉ mapKeys t := hq' ▸ h.1
      rw [List.filter_cons]
      simp only [hq, if_true]
      rw [filter_key_eq_nil_of_not_mem hknot]
      unfold mapGet
      simp only [List.find?_cons, hq]
      obtain ⟨q1, q2⟩ := q
      simp only at hq'
      subst hq'
      rfl
    · have hqf : (q.1 == k) = false := by
        rwa [Bool.not_eq_true] at hq
      rw [List.filter_cons]
      simp only [hqf, Bool.false_eq_true, if_false]
      unfold mapGet
      simp only [List.find?_cons, hqf]
      exact ih h.2

theorem mem_keys_analyzeStep (doc : Document) {m : MetricMap}
    {k : String} (s : DocumentSymbol) (h : k ∈ mapKeys m) :
    k ∈ mapKeys (analyzeStep doc m s) := by
  unfold analyzeStep
  by_cases hf : isFunctionSymbol s = true
  · rw [if_pos hf, if_pos (countLoc_nonneg doc s), mapKeys_mapSet]
    by_cases hk : getMetricKey s ∈ mapKeys m
    · rwa [if_pos hk]
    · rw [if_neg hk]
      exact List.mem_append_left _ h
  · rwa [if_neg hf]

theorem nodup_keys_analyzeStep (doc : Document) (m : MetricMap)
    (s : DocumentSymbol) (h : (mapKeys m).Nodup) :
    (mapKeys (analyzeStep doc m s)).Nodup := by
  unfold analyzeStep
  by_cases hf : isFunctionSymbol s = true
  · rw [if_pos hf, if_pos (countLoc_nonneg doc s)]
    exact nodup_mapKeys_mapSet _ _ h
  · rwa [if_neg hf]

theorem keys_foldl_mono (doc : Document) (l : List DocumentSymbol) :
    ∀ (m : MetricMap) (k : String), k ∈ mapKeys m →
      k ∈ mapKeys (l.foldl (analyzeStep doc) m) := by
  induction l with
  | nil => intro m k h; exact h
  | cons a t ih =>
    intro m k h
    rw [List.foldl_cons]
    exact ih _ _ (mem_keys_analyzeStep doc a h)

theorem nodup_keys_foldl (doc : Document) (l : List DocumentSymbol) :
    ∀ m : MetricMap, (mapKeys m).Nodup →
      (mapKeys (l.foldl (analyzeStep doc) m)).Nodup := by
  induction l with
  | nil => intro m h; exact h
  | cons a t ih =>
    intro m h
    rw [List.foldl_cons]
    exact ih _ (nodup_keys_analyzeStep doc m a h)

theorem key_mem_foldl (doc : Document) (l : List DocumentSymbol) :
    ∀ (m : MetricMap) (s : DocumentSymbol), s ∈ l →
      isFunctionSymbol s = true →
      getMetricKey s ∈ mapKeys (l.foldl (analyzeStep doc) m) := by
  induction l with
  | nil => intro m s hs; exact absurd hs (List.not_mem_nil s)
  | cons a t ih =>
    intro m s hs hf
    rw [List.foldl_cons]
    rcases List.mem_cons.mp hs with rfl | hs
    · apply keys_foldl_mono
      unfold analyzeStep
      rw [if_pos hf, if_pos (countLoc_nonneg doc s), mapKeys_mapSet]
      by_cases hk : getMetricKey s ∈ mapKeys m
      · rwa [if_pos hk]
      · rw [if_neg hk]
        exact List.mem_append_right _ (List.mem_singleton.mpr rfl)
    · exact ih _ s hs hf

theorem entries_foldl_invariant (doc : Document) (l : List DocumentSymbol) :
    ∀ m : MetricMap,
      (∀ p ∈ m, p.1 = keyOfSignatureRange p.2.signatureRange) →
      ∀ p ∈ l.foldl (analyzeStep doc) m,
        p.1 = keyOfSignatureRange p.2.signatureRange := by
  induction l with
  | nil => intro m h; exact h
  | cons a t ih =>
    intro m h
    rw [List.foldl_cons]
    apply ih
    intro p hp
    unfold analyzeStep at hp
    by_cases hf : isFunctionSymbol a = true
    · rw [if_pos hf, if_pos (countLoc_nonneg doc a)] at hp
      rcases mem_mapSet hp with hp | rfl
      · exact h p hp
      · rfl
    · rw [if_neg hf] at hp
      exact h p hp

theorem mapGet_foldl (doc : Document) (l : List DocumentSymbol) :
    ∀ (m : MetricMap) (k : String),
      mapGet (l.foldl (analyzeStep doc) m) k =
        match (l.filter fun s =>
            isFunctionSymbol s && getMetricKey s == k).getLast? with
        | some s => some (mkMetric doc s)
        | none => mapGet m k := by
  induction l with
  | nil => intro m k; rfl
  | cons a t ih =>
    intro m k
    rw [List.foldl_cons, ih, List.filter_cons]
    by_cases hP : (isFunctionSymbol a && getMetricKey a == k) = true
    · simp only [hP, if_true]
      cases hfil : (t.filter fun s =>
          isFunctionSymbol s && getMetricKey s == k).getLast? with
      | some s' =>
        have hne : (t.filter fun s =>
            isFunctionSymbol s && getMetricKey s == k) ≠ [] := by
          intro hnil
          rw [hnil] at hfil
          exact absurd hfil (by simp)
        have : (a :: (t.filter fun s =>
            isFunctionSymbol s && getMetricKey s == k)).getLast? = some s' := by
          rw [show a :: (t.filter fun s =>
              isFunctionSymbol s && getMetricKey s == k) =
            [a] ++ (t.filter fun s =>
              isFunctionSymbol s && getMetricKey s == k) from rfl]
          rw [List.getLast?_append_of_ne_nil [a] hne]
          exact hfil
        rw [this]
      | none =>
        have hnil : (t.filter fun s =>
            isFunctionSymbol s && getMetricKey s == k) = [] := by
          cases hc : (t.filter fun s =>
              isFunctionSymbol s && getMetricKey s == k) with
          | nil => rfl
          | cons b u =>
            rw [hc] at hfil
            have hsome : (b :: u).getLast?.isSome :=
              List.getLast?_isSome.mpr (by simp)
            rw [hfil] at hsome
            exact absurd hsome (by simp)
        rw [hnil]
        simp only [List.getLast?_singleton]
        rw [Bool.and_eq_true] at hP
        have hkey : getMetricKey a = k := by simpa using hP.2
        unfold analyzeStep
        rw [if_pos hP.1, if_pos (countLoc_nonneg doc a), hkey,
          mapGet_mapSet_self]
    · rw [Bool.not_eq_true] at hP
      simp only [hP, Bool.false_eq_true, if_false]
      cases hfil : (t.filter fun s =>
          isFunctionSymbol s && getMetricKey s == k).getLast? with
      | some s' => rfl
      | none =>
        show mapGet (analyzeStep doc m a) k = mapGet m k
        unfold analyzeStep
        by_cases hf : isFunctionSymbol a = true
        · rw [if_pos hf, if_pos (countLoc_nonneg doc a)]
          have hk : k ≠ getMetricKey a := by
            intro hkk
            subst hkk
            rw [hf, Bool.true_and] at hP
            simp at hP
          exact mapGet_mapSet_ne m _ hk
        · rw [if_neg hf]

theorem values_filter_sig (M : MetricMap)
    (hinv : ∀ p ∈ M, p.1 = keyOfSignatureRange p.2.signatureRange)
    (r : Range) :
    (M.map Prod.snd).filter (fun v => v.signatureRange == r) =
      (M.filter fun p => p.1 == keyOfSignatureRange r).map Prod.snd := by
  rw [List.filter_map]
  congr 1
  apply List.filter_congr
  intro p hp
  show (p.2.signatureRange == r) = (p.1 == keyOfSignatureRange r)
  rw [hinv p hp]
  by_cases he : p.2.signatureRange = r
  · simp [he]
  · have hne : keyOfSignatureRange p.2.signatureRange ≠
        keyOfSignatureRange r := fun hk => he (keyOf_injective hk)
    simp [he, hne]

/-- C9: `countLoc` always returns a non-negative value, so the
`loc >= 0` guard in `analyzeDocument` is always satisfied and never
excludes a symbol: every function-like node visited during the
traversal contributes an entry to the dedup map under its identity
key. -/
theorem claim_C9_loc_nonneg_and_coverage :
    (∀ (doc : Document) (symbol : DocumentSymbol),
      0 ≤ countLoc doc symbol) ∧
    (∀ (doc : Document) (syms : List DocumentSymbol) (s : DocumentSymbol),
      s ∈ traversal syms → isFunctionSymbol s = true →
        getMetricKey s ∈ mapKeys (analyzeLoop doc syms [])) := by
  constructor
  · exact countLoc_nonneg
  · intro doc syms s hs hf
    rw [analyzeLoop_eq_foldl]
    exact key_mem_foldl doc (traversal syms) [] s hs hf

/-- C3: any two function-like nodes of the symbol tree whose signature
ranges are identical produce exactly one `FunctionMetric` in the
output of `analyzeDocument`, and the metric kept is the one from the
node encountered later in the traversal (last-write-wins into the
dedup map). -/
theorem claim_C3_dedup_last_write_wins (doc : Document)
    (syms : List DocumentSymbol) (s1 s2 : DocumentSymbol)
    (h1 : s1 ∈ traversal syms) (h2 : s2 ∈ traversal syms)
    (hf1 : isFunctionSymbol s1 = true) (hf2 : isFunctionSymbol s2 = true)
    (heq : s1.selectionRange = s2.selectionRange) :
    ((analyzeDocument doc (Except.ok (some syms))).filter
        fun metric => metric.signatureRange == s1.selectionRange) =
      (((traversal syms).filter fun s =>
          isFunctionSymbol s && s.selectionRange ==
            s1.selectionRange).getLast?.map (mkMetric doc)).toList ∧
    ((analyzeDocument doc (Except.ok (some syms))).filter
        fun metric => metric.signatureRange == s1.selectionRange).length =
      1 := by
  have hM : analyzeDocument doc (Except.ok (some syms)) =
      (analyzeLoop doc syms []).map Prod.snd := rfl
  have hMfold : analyzeLoop doc syms [] =
      (traversal syms).foldl (analyzeStep doc) [] :=
    analyzeLoop_eq_foldl doc syms []
  have hnodup : (mapKeys (analyzeLoop doc syms [])).Nodup := by
    rw [hMfold]
    exact nodup_keys_foldl doc (traversal syms) [] List.nodup_nil
  have hinv : ∀ p ∈ analyzeLoop doc syms [],
      p.1 = keyOfSignatureRange p.2.signatureRange := by
    rw [hMfold]
    exact entries_foldl_invariant doc (traversal syms) []
      (by intro p hp; exact absurd hp (List.not_mem_nil p))
  have hpred : ∀ s : DocumentSymbol,
      (isFunctionSymbol s && getMetricKey s ==
        keyOfSignatureRange s1.selectionRange) =
      (isFunctionSymbol s && s.selectionRange == s1.selectionRange) := by
    intro s
    rw [getMetricKey_eq_keyOf]
    by_cases he : s.selectionRange = s1.selectionRange
    · simp [he]
    · have hne : keyOfSignatureRange s.selectionRange ≠
          keyOfSignatureRange s1.selectionRange :=
        fun hk => he (keyOf_injective hk)
      have e1 : (keyOfSignatureRange s.selectionRange ==
          keyOfSignatureRange s1.selectionRange) = false := by
        simp only [beq_eq_false_iff_ne, ne_eq]
        exact hne
      have e2 : (s.selectionRange == s1.selectionRange) = false := by
        simp only [beq_eq_false_iff_ne, ne_eq]
        exact he
      rw [e1, e2]
  have hget : mapGet (analyzeLoop doc syms [])
      (keyOfSignatureRange s1.selectionRange) =
      (((traversal syms).filter fun s =>
          isFunctionSymbol s && s.selectionRange ==
            s1.selectionRange).getLast?.map (mkMetric doc)) := by
    rw [hMfold, mapGet_foldl]
    rw [List.filter_congr fun s _ => hpred s]
    cases ((traversal syms).filter fun s =>
        isFunctionSymbol s && s.selectionRange ==
          s1.selectionRange).getLast? with
    | some s' => rfl
    | none => rfl
  have hchain : ((analyzeDocument doc (Except.ok (some syms))).filter
      fun metric => metric.signatureRange == s1.selectionRange) =
      (((traversal syms).filter fun s =>
          isFunctionSymbol s && s.selectionRange ==
            s1.selectionRange).getLast?.map (mkMetric doc)).toList := by
    rw [hM, values_filter_sig _ hinv, filter_key_of_nodup hnodup, hget]
    cases hlast : ((traversal syms).filter fun s =>
        isFunctionSymbol s && s.selectionRange ==
          s1.selectionRange).getLast? with
    | some s' => rfl
    | none => rfl
  refine ⟨hchain, ?_⟩
  rw [hchain]
  have hmem : s1 ∈ (traversal syms).filter fun s =>
      isFunctionSymbol s && s.selectionRange == s1.selectionRange := by
    rw [List.mem_filter]
    exact ⟨h1, by simp [hf1]⟩
  have hne : ((traversal syms).filter fun s =>
      isFunctionSymbol s && s.selectionRange == s1.selectionRange) ≠ [] := by
    intro hnil
    rw [hnil] at hmem
    exact absurd hmem (List.not_mem_nil s1)
  have hsome : (((traversal syms).filter fun s =>
      isFunctionSymbol s && s.selectionRange ==
        s1.selectionRange).getLast?).isSome :=
    List.getLast?_isSome.mpr hne
  cases hlast : ((traversal syms).filter fun s =>
      isFunctionSymbol s && s.selectionRange == s1.selectionRange).getLast? with
  | some s' => rfl
  | none =>
    rw [hlast] at hsome
    exact absurd hsome (by simp)

theorem refresh_foldl_spec (metrics : List FunctionMetric) :
    ∀ acc : Buckets × List InlineEntry,
      (metrics.foldl
        (fun (acc : Buckets × List InlineEntry) metric =>
          let category := getLocCategory metric.loc
          (bucketsPush acc.1 category metric.range,
           acc.2 ++ [mkInlineEntry metric])) acc) =
      (⟨acc.1.green ++ ((metrics.filter fun m =>
          getLocCategory m.loc == LocCategory.green).map fun m => m.range),
        acc.1.orange ++ ((metrics.filter fun m =>
          getLocCategory m.loc == LocCategory.orange).map fun m => m.range),
        acc.1.red ++ ((metrics.filter fun m =>
          getLocCategory m.loc == LocCategory.red).map fun m => m.range)⟩,
       acc.2 ++ metrics.map mkInlineEntry) := by
  induction metrics with
  | nil => intro acc; simp
  | cons m t ih =>
    intro acc
    rw [List.foldl_cons, ih]
    cases hc : getLocCategory m.loc <;>
      simp [bucketsPush, hc, List.filter_cons]

/-- C7: when the analysis yields an empty metric list, the refresh step
sends the rendering sink the explicit clear-all signal (every
decoration type set to the empty list) and emits no per-category
partitions; when the list is non-empty, it emits the category
partitions and the inline labels (one per metric, hence a non-empty
inline list), an output distinct from the clear-all signal. -/
theorem claim_C7_refresh_empty_vs_nonempty (doc : Document)
    (pr : Except Unit (Option (List DocumentSymbol))) :
    (analyzeDocument doc pr = [] →
      refreshDecorations doc pr = clearAllDecorations) ∧
    (analyzeDocument doc pr ≠ [] →
      refreshDecorations doc pr =
        [.setHighlight .green (((analyzeDocument doc pr).filter fun m =>
            getLocCategory m.loc == LocCategory.green).map fun m => m.range),
         .setHighlight .orange (((analyzeDocument doc pr).filter fun m =>
            getLocCategory m.loc == LocCategory.orange).map fun m => m.range),
         .setHighlight .red (((analyzeDocument doc pr).filter fun m =>
            getLocCategory m.loc == LocCategory.red).map fun m => m.range),
         .setInline ((analyzeDocument doc pr).map mkInlineEntry)] ∧
      (analyzeDocument doc pr).map mkInlineEntry ≠ [] ∧
      refreshDecorations doc pr ≠ clearAllDecorations) := by
  constructor
  · intro h
    unfold refreshDecorations
    rw [h]
    rfl
  · intro h
    have hne : (analyzeDocument doc pr).isEmpty = false := by
      cases hd : analyzeDocument doc pr with
      | nil => exact absurd hd h
      | cons a t => rfl
    have hre : refreshDecorations doc pr =
        [.setHighlight .green (((analyzeDocument doc pr).filter fun m =>
            getLocCategory m.loc == LocCategory.green).map fun m => m.range),
         .setHighlight .orange (((analyzeDocument doc pr).filter fun m =>
            getLocCategory m.loc == LocCategory.orange).map fun m => m.range),
         .setHighlight .red (((analyzeDocument doc pr).filter fun m =>
            getLocCategory m.loc == LocCategory.red).map fun m => m.range),
         .setInline ((analyzeDocument doc pr).map mkInlineEntry)] := by
      simp only [refreshDecorations]
      rw [hne]
      simp only [Bool.false_eq_true, if_false, refresh_foldl_spec]
      simp
    refine ⟨hre, ?_, ?_⟩
    · intro hmap
      exact h (List.map_eq_nil_iff.mp hmap)
    · rw [hre]
      unfold clearAllDecorations
      simp

/-- C6 (code evaluated at the failing input): when a debounce timer is
pending and the recalculate-now command runs, the command performs one
immediate analysis run but leaves `updateTimer` pending (the handler
never calls `clearTimeout`), so the pending timer later fires a second,
redundant analysis run — contradicting the claim that the manual run
cancels the pending timer. -/
theorem claim_C6_manual_run_leaves_timer_pending :
    (recalculateCommand (triggerUpdate ⟨none, 0⟩)).2 = 1 ∧
    (recalculateCommand (triggerUpdate ⟨none, 0⟩)).1.updateTimer = some 0 ∧
    (timerElapse (recalculateCommand (triggerUpdate ⟨none, 0⟩)).1).2 = 1 := by
  decide

/-- A sample document: a six-line function whose body (lines 1-5)
holds three countable lines, one blank line and one comment line. -/
def sampleDoc : Document :=
  ⟨["function foo() \x7b",
    "  let x = 1;",
    "",
    "  // note",
    "  return x;",
    "\x7d"]⟩

/-- A function symbol spanning the whole sample document. -/
def sampleSymbolA : DocumentSymbol :=
  .mk .Function ⟨⟨0, 0⟩, ⟨5, 1⟩⟩ ⟨⟨0, 9⟩, ⟨0, 12⟩⟩ []

/-- A method symbol with the same signature range as `sampleSymbolA`
but a shorter full range (so a different LOC value). -/
def sampleSymbolB : DocumentSymbol :=
  .mk .Method ⟨⟨0, 0⟩, ⟨4, 1⟩⟩ ⟨⟨0, 9⟩, ⟨0, 12⟩⟩ []

theorem traversal_pair_leaves (a b : DocumentSymbol)
    (ha : a.children = []) (hb : b.children = []) :
    traversal [a, b] = [b, a] := by
  have h1 : traversal [a, b] = b :: traversal ([a] ++ b.children) :=
    traversal_concat [a] b
  rw [h1, hb, List.append_nil]
  have h2 : traversal [a] = a :: traversal ([] ++ a.children) :=
    traversal_concat [] a
  rw [h2, ha]
  rw [show ([] : List DocumentSymbol) ++ [] = [] from rfl, traversal_nil]

theorem claim_C3_witness :
    ((analyzeDocument sampleDoc
        (Except.ok (some [sampleSymbolA, sampleSymbolB]))).filter
      fun metric =>
        metric.signatureRange == sampleSymbolA.selectionRange).length = 1 :=
  (claim_C3_dedup_last_write_wins sampleDoc [sampleSymbolA, sampleSymbolB]
    sampleSymbolA sampleSymbolB
    (by rw [traversal_pair_leaves sampleSymbolA sampleSymbolB rfl rfl]; simp)
    (by rw [traversal_pair_leaves sampleSymbolA sampleSymbolB rfl rfl]; simp)
    (by decide) (by decide) rfl).2

theorem claim_C9_witness :
    getMetricKey sampleSymbolA ∈
      mapKeys (analyzeLoop sampleDoc [sampleSymbolA, sampleSymbolB] []) := by
  apply claim_C9_loc_nonneg_and_coverage.2
  · rw [traversal_pair_leaves sampleSymbolA sampleSymbolB rfl rfl]
    simp
  · decide

theorem claim_C7_witness :
    refreshDecorations sampleDoc (Except.ok none) = clearAllDecorations ∧
    refreshDecorations sampleDoc (Except.ok (some [sampleSymbolA])) ≠
      clearAllDecorations := by
  constructor
  · exact (claim_C7_refresh_empty_vs_nonempty sampleDoc (Except.ok none)).1 rfl
  · have hA : analyzeDocument sampleDoc (Except.ok (some [sampleSymbolA])) =
        [mkMetric sampleDoc sampleSymbolA] := by
      show (analyzeLoop sampleDoc [sampleSymbolA] []).map Prod.snd = _
      rw [analyzeLoop_eq_foldl]
      have ht : traversal [sampleSymbolA] = [sampleSymbolA] := by
        have h2 : traversal [sampleSymbolA] =
            sampleSymbolA :: traversal ([] ++ sampleSymbolA.children) :=
          traversal_concat [] sampleSymbolA
        rw [h2, show ([] : List DocumentSymbol) ++ sampleSymbolA.children =
          [] from rfl, traversal_nil]
      rw [ht]
      rfl
    exact (claim_C7_refresh_empty_vs_nonempty sampleDoc
      (Except.ok (some [sampleSymbolA]))).2 (by rw [hA]; simp) |>.2.2

end Loca
